import Mathlib

/-!
Verification of the proof-of-work ledger in `src/main.rs`.

The Rust program hashes block fields with `std::collections::hash_map::DefaultHasher`,
which is SipHash-1-3 keyed with `(0, 0)`.  We embed that hash bit-for-bit over `Nat`
(working modulo `2 ^ 64`), assuming the usual little-endian platform for the
native-endian `write_u64` calls made by `u64::hash`.  `&str::hash` writes the UTF-8
bytes of the string followed by a single `0xff` byte.  The digest is rendered with
`format!("{:x}", _)`: lowercase hexadecimal *without* leading zeros (`natToHex`
below).  Mining (`mine_block`) is an unbounded loop in Rust; we embed it with an
explicit fuel argument, `none` meaning the loop has not returned within `fuel`
iterations.  `validate()` is described in the specification but absent from the
source; it is modelled from the spec (see `validate` below).
-/

namespace AnPow

/-! ## SipHash-1-3 (Rust `DefaultHasher`) -/

def wrap64 (n : Nat) : Nat := n % 2 ^ 64

def rotl64 (x r : Nat) : Nat := wrap64 (x <<< r) ||| (x >>> (64 - r))

/-- Internal state of SipHash: four 64-bit words. -/
structure SipState where
  v0 : Nat
  v1 : Nat
  v2 : Nat
  v3 : Nat
deriving DecidableEq

/-- One SIPROUND, exactly as in `rust/library/core/src/hash/sip.rs`. -/
def sipRound (s : SipState) : SipState :=
  let v0 := wrap64 (s.v0 + s.v1)
  let v1 := rotl64 s.v1 13
  let v1 := v1 ^^^ v0
  let v0 := rotl64 v0 32
  let v2 := wrap64 (s.v2 + s.v3)
  let v3 := rotl64 s.v3 16
  let v3 := v3 ^^^ v2
  let v0 := wrap64 (v0 + v3)
  let v3 := rotl64 v3 21
  let v3 := v3 ^^^ v0
  let v2 := wrap64 (v2 + v1)
  let v1 := rotl64 v1 17
  let v1 := v1 ^^^ v2
  let v2 := rotl64 v2 32
  ⟨v0, v1, v2, v3⟩

/-- Little-endian value of a byte list. -/
def leWord : List Nat → Nat
  | [] => 0
  | b :: bs => b + 256 * leWord bs

/-- Absorb one 64-bit message word: `v3 ^= m`, one SIPROUND (`c = 1`), `v0 ^= m`. -/
def sipCompress (s : SipState) (m : Nat) : SipState :=
  let s1 : SipState := ⟨s.v0, s.v1, s.v2, s.v3 ^^^ m⟩
  let s2 := sipRound s1
  ⟨s2.v0 ^^^ m, s2.v1, s2.v2, s2.v3⟩

/-- Absorb all full 8-byte blocks; return the state and the remaining tail. -/
def sipBlocks : SipState → List Nat → SipState × List Nat
  | s, b0 :: b1 :: b2 :: b3 :: b4 :: b5 :: b6 :: b7 :: rest =>
      sipBlocks (sipCompress s (leWord [b0, b1, b2, b3, b4, b5, b6, b7])) rest
  | s, tail => (s, tail)

/-- Finalization: absorb the length-tagged tail block, `v2 ^= 0xff`, three
SIPROUNDs (`d = 3`), xor the state words together. -/
def sipFinish (s : SipState) (len : Nat) (tail : List Nat) : SipState :=
  let b := ((len % 256) <<< 56) ||| leWord tail
  let s1 := sipCompress s b
  let s2 : SipState := ⟨s1.v0, s1.v1, s1.v2 ^^^ 0xff, s1.v3⟩
  sipRound (sipRound (sipRound s2))

/-- SipHash-1-3 with key `(0, 0)`: what `DefaultHasher::new()` followed by the
writes of `msg` and `finish()` computes. -/
def siphash13 (msg : List Nat) : Nat :=
  let s0 : SipState :=
    ⟨0x736f6d6570736575, 0x646f72616e646f6d, 0x6c7967656e657261, 0x7465646279746573⟩
  let p := sipBlocks s0 msg
  let s := sipFinish p.1 msg.length p.2
  s.v0 ^^^ s.v1 ^^^ s.v2 ^^^ s.v3

/-! ## Hashing the four block fields (`Blockchain::calculate_hash`) -/

/-- UTF-8 encoding of one character (written on `n := c.toNat`). -/
def utf8Encode (n : Nat) : List Nat :=
  if n < 0x80 then [n]
  else if n < 0x800 then [0xC0 ||| (n >>> 6), 0x80 ||| (n &&& 0x3F)]
  else if n < 0x10000 then
    [0xE0 ||| (n >>> 12), 0x80 ||| ((n >>> 6) &&& 0x3F), 0x80 ||| (n &&& 0x3F)]
  else
    [0xF0 ||| (n >>> 18), 0x80 ||| ((n >>> 12) &&& 0x3F),
     0x80 ||| ((n >>> 6) &&& 0x3F), 0x80 ||| (n &&& 0x3F)]

/-- UTF-8 bytes of one character. -/
def utf8Bytes (c : Char) : List Nat := utf8Encode c.toNat

/-- UTF-8 bytes of a string (`str::as_bytes`). -/
def strBytes (s : String) : List Nat := s.data.flatMap utf8Bytes

/-- The 8 little-endian bytes written by `u64::hash` on a little-endian platform. -/
def le8 (n : Nat) : List Nat :=
  [n &&& 0xff, (n >>> 8) &&& 0xff, (n >>> 16) &&& 0xff, (n >>> 24) &&& 0xff,
   (n >>> 32) &&& 0xff, (n >>> 40) &&& 0xff, (n >>> 48) &&& 0xff, (n >>> 56) &&& 0xff]

/-- Byte stream fed to the hasher by `calculate_hash`: each `&str` contributes its
bytes plus a `0xff` terminator (`Hash for str`), each `u64` its 8 LE bytes. -/
def hashMessage (previous_hash : String) (timestamp : Nat) (data : String) (nonce : Nat) :
    List Nat :=
  strBytes previous_hash ++ [0xff] ++ le8 timestamp ++ strBytes data ++ [0xff] ++ le8 nonce

/-- The `u64` returned by `hasher.finish()` inside `calculate_hash`. -/
def hashValue (previous_hash : String) (timestamp : Nat) (data : String) (nonce : Nat) : Nat :=
  siphash13 (hashMessage previous_hash timestamp data nonce)

/-- Lowercase hex digit, as produced by `format!("{:x}", _)`. -/
def hexDigit (n : Nat) : Char :=
  if n < 10 then Char.ofNat (48 + n) else Char.ofNat (87 + n)

/-- Digit loop for `natToHex`, structurally recursive on a fuel argument in the
style of `Nat.toDigitsCore`; `natToHex` always supplies enough fuel. -/
def natToHexAux : Nat → Nat → List Char → List Char
  | 0, n, acc => hexDigit (n % 16) :: acc
  | fuel + 1, n, acc =>
    if n < 16 then hexDigit n :: acc
    else natToHexAux fuel (n / 16) (hexDigit (n % 16) :: acc)

/-- Hex digits of `n`, most significant first, no leading zeros (`["0"]` for 0):
the digit string printed by `format!("{:x}", n)`. -/
def natToHex (n : Nat) : List Char := natToHexAux n n []

/-- Rendering of `format!("{:x}", n)` as a string. -/
def formatHex (n : Nat) : String := String.mk (natToHex n)

/-- Embedding of `Blockchain::calculate_hash`. -/
def calculate_hash (previous_hash : String) (timestamp : Nat) (data : String) (nonce : Nat) :
    String :=
  formatHex (hashValue previous_hash timestamp data nonce)

/-- Embedding of `Blockchain::is_valid_hash`:
`hash.starts_with(&"0".repeat(self.difficulty))`. -/
def is_valid_hash (difficulty : Nat) (hash : String) : Bool :=
  List.isPrefixOf (List.replicate difficulty '0') hash.data

/-! ## Mining (`Blockchain::mine_block`), fuel-indexed -/

/-- The mining loop of `mine_block` starting from `nonce`; `none` means the loop
has not returned within `fuel` iterations (the Rust loop is unbounded). -/
def mineFrom (difficulty : Nat) (previous_hash : String) (timestamp : Nat) (data : String) :
    Nat → Nat → Option (Nat × String)
  | 0, _ => none
  | fuel + 1, nonce =>
    let hash := calculate_hash previous_hash timestamp data nonce
    if is_valid_hash difficulty hash then some (nonce, hash)
    else mineFrom difficulty previous_hash timestamp data fuel (nonce + 1)

/-- Embedding of `Blockchain::mine_block` (nonce search starts at 0). -/
def mine_block (difficulty : Nat) (previous_hash : String) (timestamp : Nat) (data : String)
    (fuel : Nat) : Option (Nat × String) :=
  mineFrom difficulty previous_hash timestamp data fuel 0

/-! ## Data model (`Block`, `Blockchain`) and its operations -/

structure Block where
  index : Nat
  timestamp : Nat
  data : String
  previous_hash : String
  hash : String
  nonce : Nat
deriving DecidableEq

structure Blockchain where
  chain : List Block
  pending_transactions : List String
  difficulty : Nat
deriving DecidableEq

/-- The genesis block built by `Blockchain::new`. -/
def genesisBlock : Block :=
  { index := 0, timestamp := 0, data := "Genesis Block",
    previous_hash := "0", hash := "0", nonce := 0 }

/-- Embedding of `Blockchain::new`. -/
def Blockchain.new (difficulty : Nat) : Blockchain :=
  { chain := [genesisBlock], pending_transactions := [], difficulty := difficulty }

/-- Embedding of `Blockchain::add_block`.  The wall-clock read becomes the
`timestamp` argument; `fuel` bounds the embedded mining loop, `none` meaning
either the (impossible) empty-chain panic or mining still running. -/
def add_block (bc : Blockchain) (timestamp fuel : Nat) (data : String) : Option Blockchain :=
  match bc.chain.getLast? with
  | none => none
  | some previous_block =>
    match mine_block bc.difficulty previous_block.hash timestamp data fuel with
    | none => none
    | some (nonce, hash) =>
      some { bc with
        chain := bc.chain ++
          [{ index := bc.chain.length % 2 ^ 32, timestamp := timestamp, data := data,
             previous_hash := previous_block.hash, hash := hash, nonce := nonce }] }

/-- Embedding of `Blockchain::add_transaction`. -/
def add_transaction (bc : Blockchain) (t : String) : Blockchain :=
  { bc with pending_transactions := bc.pending_transactions ++ [t] }

/-- Embedding of `Blockchain::mine_and_add_block`. -/
def mine_and_add_block (bc : Blockchain) (timestamp fuel : Nat) : Option Blockchain :=
  if bc.pending_transactions.isEmpty then some bc
  else
    match add_block bc timestamp fuel (String.intercalate ";" bc.pending_transactions) with
    | none => none
    | some bc2 => some { bc2 with pending_transactions := [] }

/-- One public mutating call on the ledger. -/
inductive Op where
  | tx (t : String)
  | seal (timestamp fuel : Nat)

/-- Run a sequence of public calls; `none` once a seal fails to finish mining. -/
def run (bc : Blockchain) : List Op → Option Blockchain
  | [] => some bc
  | Op.tx t :: ops => run (add_transaction bc t) ops
  | Op.seal ts fuel :: ops =>
    match mine_and_add_block bc ts fuel with
    | none => none
    | some bc2 => run bc2 ops

/-! ## Validation

Modelled from the spec: `validate()` is described in spec §4.1 but is absent from
`src/main.rs` (no such method exists in the source).  Per the spec: for each block
from index 1 upward, recompute the digest from the stored `previous_hash`,
`timestamp`, `data`, `nonce` and compare it with the stored `hash`; check
`previous_hash` equals the prior block's `hash`; check the recomputed digest meets
the difficulty predicate; report the index and kind of the first violation. -/

inductive FailKind where
  | hashMismatch
  | linkageMismatch
  | difficultyNotMet
deriving DecidableEq

/-- Modelled from the spec: the three checks run on one block `b` against its
predecessor `prev`, in the spec's order, returning the first failure. -/
def blockCheck (difficulty : Nat) (prev b : Block) : Option FailKind :=
  let recomputed := calculate_hash b.previous_hash b.timestamp b.data b.nonce
  if recomputed ≠ b.hash then some FailKind.hashMismatch
  else if b.previous_hash ≠ prev.hash then some FailKind.linkageMismatch
  else if ¬ is_valid_hash difficulty recomputed then some FailKind.difficultyNotMet
  else none

/-- Modelled from the spec: walk the chain from index 1 upward, stopping at the
first violation. -/
def validateAux (difficulty : Nat) (prev : Block) (rest : List Block) (i : Nat) :
    Option (Nat × FailKind) :=
  match rest with
  | [] => none
  | b :: bs =>
    match blockCheck difficulty prev b with
    | some k => some (i, k)
    | none => validateAux difficulty b bs (i + 1)

/-- Modelled from the spec: `validate()`; `none` is success, `some (i, k)` reports
the first violating index and its failing check. -/
def validate (bc : Blockchain) : Option (Nat × FailKind) :=
  match bc.chain with
  | [] => none
  | g :: rest => validateAux bc.difficulty g rest 1

/-- The checks of `validate` at chain position `i` (meaningful for `0 < i`). -/
def checkAt (bc : Blockchain) (i : Nat) : Option FailKind :=
  match bc.chain[i - 1]?, bc.chain[i]? with
  | some prev, some b => blockCheck bc.difficulty prev b
  | _, _ => none

/-- Pairwise hash linkage of a chain, the invariant behind claim C5. -/
def linkedChain : List Block → Bool
  | [] => true
  | [_] => true
  | a :: b :: rest => (b.previous_hash == a.hash) && linkedChain (b :: rest)

/-! ## Bound lemmas: the embedded hasher stays within 64 bits -/

/-- All four state words fit in 64 bits. -/
def SipState.Bounded (s : SipState) : Prop :=
  s.v0 < 2 ^ 64 ∧ s.v1 < 2 ^ 64 ∧ s.v2 < 2 ^ 64 ∧ s.v3 < 2 ^ 64

theorem wrap64_lt (n : Nat) : wrap64 n < 2 ^ 64 :=
  Nat.mod_lt _ (by norm_num)

theorem lor_lt64 {x y : Nat} (hx : x < 2 ^ 64) (hy : y < 2 ^ 64) : x ||| y < 2 ^ 64 :=
  Nat.bitwise_lt hx hy

theorem xor_lt64 {x y : Nat} (hx : x < 2 ^ 64) (hy : y < 2 ^ 64) : x ^^^ y < 2 ^ 64 :=
  Nat.bitwise_lt hx hy

theorem shiftRight_le (n k : Nat) : n >>> k ≤ n := by
  rw [Nat.shiftRight_eq_div_pow]
  exact Nat.div_le_self n (2 ^ k)

theorem rotl64_lt {x : Nat} (hx : x < 2 ^ 64) (r : Nat) : rotl64 x r < 2 ^ 64 :=
  lor_lt64 (wrap64_lt _) (Nat.lt_of_le_of_lt (shiftRight_le x _) hx)

theorem sipRound_bounded {s : SipState} (h : s.Bounded) : (sipRound s).Bounded := by
  obtain ⟨h0, h1, h2, h3⟩ := h
  simp only [sipRound, SipState.Bounded]
  exact ⟨wrap64_lt _,
    xor_lt64 (rotl64_lt (xor_lt64 (rotl64_lt h1 13) (wrap64_lt _)) 17) (wrap64_lt _),
    rotl64_lt (wrap64_lt _) 32,
    xor_lt64 (rotl64_lt (xor_lt64 (rotl64_lt h3 16) (wrap64_lt _)) 21) (wrap64_lt _)⟩

theorem sipCompress_bounded {s : SipState} (h : s.Bounded) {m : Nat} (hm : m < 2 ^ 64) :
    (sipCompress s m).Bounded := by
  obtain ⟨h0, h1, h2, h3⟩ := h
  have h4 : SipState.Bounded ⟨s.v0, s.v1, s.v2, s.v3 ^^^ m⟩ := ⟨h0, h1, h2, xor_lt64 h3 hm⟩
  have h5 := sipRound_bounded h4
  exact ⟨xor_lt64 h5.1 hm, h5.2.1, h5.2.2.1, h5.2.2.2⟩

theorem leWord_lt (l : List Nat) (hl : ∀ b ∈ l, b < 256) : leWord l < 256 ^ l.length := by
  induction l with
  | nil => simp [leWord]
  | cons b bs ih =>
    have hb : b < 256 := hl b (List.mem_cons_self b bs)
    have hbs := ih (fun x hx => hl x (List.mem_cons_of_mem b hx))
    rw [leWord]
    calc b + 256 * leWord bs < 256 + 256 * leWord bs := by omega
    _ ≤ 256 * (leWord bs + 1) := by ring_nf; omega
    _ ≤ 256 * 256 ^ bs.length := by
        have : leWord bs + 1 ≤ 256 ^ bs.length := hbs
        exact Nat.mul_le_mul_left 256 this
    _ = 256 ^ (b :: bs).length := by rw [List.length_cons]; ring

theorem sipBlocks_spec : ∀ (s : SipState) (msg : List Nat), s.Bounded →
    (∀ b ∈ msg, b < 256) →
    ((sipBlocks s msg).1.Bounded ∧ (sipBlocks s msg).2.length < 8 ∧
      ∀ b ∈ (sipBlocks s msg).2, b < 256)
  | s, b0 :: b1 :: b2 :: b3 :: b4 :: b5 :: b6 :: b7 :: rest, hs, hmsg => by
    have h8 : ∀ b ∈ [b0, b1, b2, b3, b4, b5, b6, b7], b < 256 := by
      intro b hb
      apply hmsg
      simp only [List.mem_cons, List.not_mem_nil, or_false] at hb
      rcases hb with rfl | rfl | rfl | rfl | rfl | rfl | rfl | rfl <;> simp
    have hword : leWord [b0, b1, b2, b3, b4, b5, b6, b7] < 2 ^ 64 := by
      calc leWord [b0, b1, b2, b3, b4, b5, b6, b7]
          < 256 ^ ([b0, b1, b2, b3, b4, b5, b6, b7] : List Nat).length := leWord_lt _ h8
      _ = 2 ^ 64 := by norm_num
    have hrest : ∀ b ∈ rest, b < 256 := fun b hb => hmsg b (by simp [hb])
    have hrec := sipBlocks_spec (sipCompress s (leWord [b0, b1, b2, b3, b4, b5, b6, b7])) rest
      (sipCompress_bounded hs hword) hrest
    simpa [sipBlocks] using hrec
  | s, [], hs, hmsg => ⟨hs, by show (0 : Nat) < 8; omega, hmsg⟩
  | s, [b0], hs, hmsg => ⟨hs, by show (1 : Nat) < 8; omega, hmsg⟩
  | s, [b0, b1], hs, hmsg => ⟨hs, by show (2 : Nat) < 8; omega, hmsg⟩
  | s, [b0, b1, b2], hs, hmsg => ⟨hs, by show (3 : Nat) < 8; omega, hmsg⟩
  | s, [b0, b1, b2, b3], hs, hmsg => ⟨hs, by show (4 : Nat) < 8; omega, hmsg⟩
  | s, [b0, b1, b2, b3, b4], hs, hmsg => ⟨hs, by show (5 : Nat) < 8; omega, hmsg⟩
  | s, [b0, b1, b2, b3, b4, b5], hs, hmsg => ⟨hs, by show (6 : Nat) < 8; omega, hmsg⟩
  | s, [b0, b1, b2, b3, b4, b5, b6], hs, hmsg => ⟨hs, by show (7 : Nat) < 8; omega, hmsg⟩

theorem sipFinish_bounded {s : SipState} (h : s.Bounded) (len : Nat) {tail : List Nat}
    (htl : tail.length < 8) (htb : ∀ b ∈ tail, b < 256) : (sipFinish s len tail).Bounded := by
  have hword : leWord tail < 2 ^ 64 := by
    calc leWord tail < 256 ^ tail.length := leWord_lt _ htb
    _ ≤ 256 ^ 7 := Nat.pow_le_pow_right (by norm_num) (by omega)
    _ < 2 ^ 64 := by norm_num
  have hb : ((len % 256) <<< 56) ||| leWord tail < 2 ^ 64 :=
    lor_lt64 (Nat.shiftLeft_lt (show len % 256 < 2 ^ 8 by omega)) hword
  have h1 := sipCompress_bounded h hb
  simp only [sipFinish]
  exact sipRound_bounded (sipRound_bounded (sipRound_bounded
    ⟨h1.1, h1.2.1, xor_lt64 h1.2.2.1 (by norm_num), h1.2.2.2⟩))

theorem siphash13_lt (msg : List Nat) (hmsg : ∀ b ∈ msg, b < 256) : siphash13 msg < 2 ^ 64 := by
  have h0 : SipState.Bounded
      ⟨0x736f6d6570736575, 0x646f72616e646f6d, 0x6c7967656e657261, 0x7465646279746573⟩ := by
    refine ⟨?_, ?_, ?_, ?_⟩ <;> norm_num
  have hb := sipBlocks_spec _ msg h0 hmsg
  have hf := sipFinish_bounded hb.1 msg.length hb.2.1 hb.2.2
  simp only [siphash13]
  exact xor_lt64 (xor_lt64 (xor_lt64 hf.1 hf.2.1) hf.2.2.1) hf.2.2.2

theorem utf8Encode_lt (n : Nat) (hc : n < 1114112) : ∀ b ∈ utf8Encode n, b < 256 := by
  unfold utf8Encode
  split_ifs with h1 h2 h3 <;> intro b hb <;>
    simp only [List.mem_cons, List.not_mem_nil, or_false] at hb
  · omega
  · rcases hb with rfl | rfl
    · exact Nat.bitwise_lt (n := 8) (by omega) (by omega)
    · exact Nat.bitwise_lt (n := 8) (by omega)
        (Nat.lt_of_le_of_lt Nat.and_le_right (by norm_num))
  · rcases hb with rfl | rfl | rfl
    · exact Nat.bitwise_lt (n := 8) (by omega) (by omega)
    · exact Nat.bitwise_lt (n := 8) (by omega)
        (Nat.lt_of_le_of_lt Nat.and_le_right (by norm_num))
    · exact Nat.bitwise_lt (n := 8) (by omega)
        (Nat.lt_of_le_of_lt Nat.and_le_right (by norm_num))
  · rcases hb with rfl | rfl | rfl | rfl
    · exact Nat.bitwise_lt (n := 8) (by omega) (by omega)
    · exact Nat.bitwise_lt (n := 8) (by omega)
        (Nat.lt_of_le_of_lt Nat.and_le_right (by norm_num))
    · exact Nat.bitwise_lt (n := 8) (by omega)
        (Nat.lt_of_le_of_lt Nat.and_le_right (by norm_num))
    · exact Nat.bitwise_lt (n := 8) (by omega)
        (Nat.lt_of_le_of_lt Nat.and_le_right (by norm_num))

theorem utf8Bytes_lt (c : Char) : ∀ b ∈ utf8Bytes c, b < 256 := by
  have hc : c.toNat < 1114112 := by
    rcases c.valid with h | h
    · exact Nat.lt_trans h (by norm_num)
    · exact h.2
  exact utf8Encode_lt c.toNat hc

theorem strBytes_lt (s : String) : ∀ b ∈ strBytes s, b < 256 := by
  intro b hb
  simp only [strBytes, List.mem_flatMap] at hb
  obtain ⟨c, _, hc⟩ := hb
  exact utf8Bytes_lt c b hc

theorem le8_lt (n : Nat) : ∀ b ∈ le8 n, b < 256 := by
  intro b hb
  simp only [le8, List.mem_cons, List.not_mem_nil, or_false] at hb
  rcases hb with rfl | rfl | rfl | rfl | rfl | rfl | rfl | rfl <;>
    exact Nat.lt_of_le_of_lt Nat.and_le_right (by norm_num)

theorem hashMessage_lt (p : String) (t : Nat) (d : String) (n : Nat) :
    ∀ b ∈ hashMessage p t d n, b < 256 := by
  intro b hb
  simp only [hashMessage, List.append_assoc, List.mem_append, List.mem_cons,
    List.not_mem_nil, or_false] at hb
  rcases hb with h | h | h | h | h | h
  · exact strBytes_lt p b h
  · omega
  · exact le8_lt t b h
  · exact strBytes_lt d b h
  · omega
  · exact le8_lt n b h

/-- The value hashed by `calculate_hash` fits in 64 bits: the embedding stays
faithful to the `u64` arithmetic of `DefaultHasher`. -/
theorem hashValue_lt (p : String) (t : Nat) (d : String) (n : Nat) :
    hashValue p t d n < 2 ^ 64 :=
  siphash13_lt _ (hashMessage_lt p t d n)

/-! ## The unpadded hex rendering: facts about `natToHex` -/

theorem natToHexAux_ne_nil : ∀ (fuel n : Nat) (acc : List Char), natToHexAux fuel n acc ≠ []
  | 0, n, acc => by simp [natToHexAux]
  | fuel + 1, n, acc => by
    rw [natToHexAux]
    split
    · simp
    · exact natToHexAux_ne_nil fuel (n / 16) _

theorem natToHex_ne_nil (n : Nat) : natToHex n ≠ [] := natToHexAux_ne_nil n n []

theorem hexDigit_ne_zero {d : Nat} (hd : d < 16) (h0 : d ≠ 0) : hexDigit d ≠ '0' := by
  interval_cases d <;> first | exact absurd rfl h0 | decide

theorem natToHexAux_head (fuel : Nat) : ∀ (n : Nat) (acc : List Char) (c : Char),
    n < 16 ^ (fuel + 1) → n ≠ 0 → (natToHexAux fuel n acc).head? = some c → c ≠ '0' := by
  induction fuel with
  | zero =>
    intro n acc c hlt hn hh
    have h16 : n < 16 := by simpa using hlt
    rw [natToHexAux] at hh
    simp only [List.head?_cons, Option.some.injEq] at hh
    subst hh
    rw [Nat.mod_eq_of_lt h16]
    exact hexDigit_ne_zero h16 hn
  | succ fuel ih =>
    intro n acc c hlt hn hh
    rw [natToHexAux] at hh
    by_cases h16 : n < 16
    · rw [if_pos h16] at hh
      simp only [List.head?_cons, Option.some.injEq] at hh
      subst hh
      exact hexDigit_ne_zero h16 hn
    · rw [if_neg h16] at hh
      refine ih (n / 16) _ c ?_ (by omega) hh
      rw [Nat.div_lt_iff_lt_mul (by norm_num)]
      calc n < 16 ^ (fuel + 1 + 1) := hlt
      _ = 16 ^ (fuel + 1) * 16 := by ring

theorem natToHex_head_ne_zero {n : Nat} (hn : n ≠ 0) {c : Char}
    (hc : (natToHex n).head? = some c) : c ≠ '0' := by
  refine natToHexAux_head n n [] c ?_ hn hc
  calc n < 2 ^ n := Nat.lt_two_pow n
  _ ≤ 16 ^ n := Nat.pow_le_pow_left (by norm_num) n
  _ ≤ 16 ^ (n + 1) := Nat.pow_le_pow_right (by norm_num) (by omega)

theorem formatHex_zero : formatHex 0 = "0" := by decide

/-- The first hex digit of an unpadded rendering is `'0'` only for the value 0. -/
theorem formatHex_head_eq_zero {v : Nat} (h : (formatHex v).data.head? = some '0') :
    formatHex v = "0" := by
  by_cases hv : v = 0
  · subst hv; exact formatHex_zero
  · exact absurd rfl (natToHex_head_ne_zero hv h)

/-- With difficulty at least 2, no unpadded hex rendering passes `is_valid_hash`. -/
theorem is_valid_hash_formatHex_false {d : Nat} (hd : 2 ≤ d) (v : Nat) :
    is_valid_hash d (formatHex v) = false := by
  obtain ⟨d2, rfl⟩ : ∃ d2, d = d2 + 2 := ⟨d - 2, by omega⟩
  obtain ⟨c, cs, hcons⟩ := List.exists_cons_of_ne_nil (natToHex_ne_nil v)
  unfold is_valid_hash formatHex
  rw [show (String.mk (natToHex v)).data = natToHex v from rfl, hcons]
  by_cases hv : v = 0
  · subst hv
    have h0 : natToHex 0 = ['0'] := by decide
    rw [h0] at hcons
    obtain ⟨rfl, rfl⟩ : c = '0' ∧ cs = [] := by
      injection hcons with h1 h2
      exact ⟨h1.symm, h2.symm⟩
    simp [List.replicate_succ, List.isPrefixOf]
  · have hc : c ≠ '0' := natToHex_head_ne_zero hv (by rw [hcons]; rfl)
    simp [List.replicate_succ, List.isPrefixOf, hc, Ne.symm hc]

/-! ## Facts about the mining loop -/

theorem mineFrom_none_of_all_invalid (difficulty : Nat) (previous_hash : String)
    (timestamp : Nat) (data : String)
    (hall : ∀ m, is_valid_hash difficulty (calculate_hash previous_hash timestamp data m) = false) :
    ∀ (fuel start : Nat), mineFrom difficulty previous_hash timestamp data fuel start = none := by
  intro fuel
  induction fuel with
  | zero => intro start; rfl
  | succ f ih =>
    intro start
    rw [mineFrom]
    simp only [hall start, Bool.false_eq_true, if_false]
    exact ih (start + 1)

theorem mineFrom_spec (difficulty : Nat) (previous_hash : String) (timestamp : Nat)
    (data : String) : ∀ (fuel start nonce : Nat) (hash : String),
    mineFrom difficulty previous_hash timestamp data fuel start = some (nonce, hash) →
    start ≤ nonce ∧ hash = calculate_hash previous_hash timestamp data nonce ∧
      is_valid_hash difficulty hash = true ∧
      ∀ m, start ≤ m → m < nonce →
        is_valid_hash difficulty (calculate_hash previous_hash timestamp data m) = false := by
  intro fuel
  induction fuel with
  | zero => intro start nonce hash h; exact absurd h (by simp [mineFrom])
  | succ f ih =>
    intro start nonce hash h
    rw [mineFrom] at h
    by_cases hv : is_valid_hash difficulty (calculate_hash previous_hash timestamp data start)
      = true
    · rw [if_pos hv] at h
      simp only [Option.some.injEq, Prod.mk.injEq] at h
      obtain ⟨rfl, rfl⟩ := h
      exact ⟨Nat.le_refl _, rfl, hv,
        fun m h1 h2 => absurd (Nat.lt_of_le_of_lt h1 h2) (Nat.lt_irrefl start)⟩
    · rw [if_neg hv] at h
      obtain ⟨hle, heq, hval, hmin⟩ := ih (start + 1) nonce hash h
      refine ⟨by omega, heq, hval, ?_⟩
      intro m hm1 hm2
      rcases Nat.eq_or_lt_of_le hm1 with rfl | hlt
      · simpa using hv
      · exact hmin m (by omega) hm2

/-! ## Chain linkage invariant -/

theorem linkedChain_concat : ∀ (l : List Block) (p blk : Block),
    linkedChain l = true → l.getLast? = some p → blk.previous_hash = p.hash →
    linkedChain (l ++ [blk]) = true
  | [], p, blk, _, hlast, _ => by simp at hlast
  | [a], p, blk, _, hlast, hblk => by
    simp only [List.getLast?_singleton, Option.some.injEq] at hlast
    subst hlast
    simp [linkedChain, hblk]
  | a :: b :: l2, p, blk, hl, hlast, hblk => by
    rw [linkedChain] at hl
    simp only [Bool.and_eq_true, beq_iff_eq] at hl
    have hlast2 : (b :: l2).getLast? = some p := by
      rw [← hlast]; symm; exact List.getLast?_cons_cons
    have hrec := linkedChain_concat (b :: l2) p blk hl.2 hlast2 hblk
    rw [List.cons_append] at hrec
    show linkedChain (a :: b :: (l2 ++ [blk])) = true
    rw [linkedChain]
    simp [hl.1, hrec]

theorem linkedChain_get : ∀ (l : List Block), linkedChain l = true →
    ∀ (i : Nat) (hi : i + 1 < l.length),
      (l.get ⟨i + 1, hi⟩).previous_hash = (l.get ⟨i, Nat.lt_of_succ_lt hi⟩).hash
  | [], _, i, hi => by simp at hi
  | [a], _, i, hi => by
    simp only [List.length_singleton] at hi
    omega
  | a :: b :: l2, hl, 0, hi => by
    rw [linkedChain] at hl
    simp only [Bool.and_eq_true, beq_iff_eq] at hl
    exact hl.1
  | a :: b :: l2, hl, i + 1, hi => by
    rw [linkedChain] at hl
    simp only [Bool.and_eq_true, beq_iff_eq] at hl
    exact linkedChain_get (b :: l2) hl.2 i
      (by simp only [List.length_cons] at hi ⊢; omega)

theorem add_block_linked {bc : Blockchain} {ts fuel : Nat} {data : String} {bc2 : Blockchain}
    (h : add_block bc ts fuel data = some bc2) (hl : linkedChain bc.chain = true) :
    linkedChain bc2.chain = true := by
  unfold add_block at h
  split at h
  · exact absurd h (by simp)
  · rename_i prev hg
    split at h
    · exact absurd h (by simp)
    · rename_i nonce hash hm
      simp only [Option.some.injEq] at h
      subst h
      exact linkedChain_concat bc.chain prev _ hl hg rfl

theorem mine_and_add_block_linked {bc : Blockchain} {ts fuel : Nat} {bc2 : Blockchain}
    (h : mine_and_add_block bc ts fuel = some bc2) (hl : linkedChain bc.chain = true) :
    linkedChain bc2.chain = true := by
  unfold mine_and_add_block at h
  by_cases he : bc.pending_transactions.isEmpty = true
  · rw [if_pos he] at h
    simp only [Option.some.injEq] at h
    subst h; exact hl
  · rw [if_neg he] at h
    cases hab : add_block bc ts fuel (String.intercalate ";" bc.pending_transactions) with
    | none => rw [hab] at h; exact absurd h (by simp)
    | some bc3 =>
      rw [hab] at h
      simp only [Option.some.injEq] at h
      subst h
      show linkedChain bc3.chain = true
      exact add_block_linked hab hl

theorem run_linked : ∀ (ops : List Op) (bc bc2 : Blockchain),
    run bc ops = some bc2 → linkedChain bc.chain = true → linkedChain bc2.chain = true
  | [], bc, bc2, h, hl => by
    simp only [run, Option.some.injEq] at h
    subst h; exact hl
  | Op.tx t :: ops, bc, bc2, h, hl => by
    rw [run] at h
    exact run_linked ops _ bc2 h hl
  | Op.seal ts fuel :: ops, bc, bc2, h, hl => by
    rw [run] at h
    cases hm : mine_and_add_block bc ts fuel with
    | none => rw [hm] at h; exact absurd h (by simp)
    | some bc3 =>
      rw [hm] at h
      exact run_linked ops bc3 bc2 h (mine_and_add_block_linked hm hl)

/-! ## Characterization of `validate` -/

theorem validateAux_none (difficulty : Nat) : ∀ (rest : List Block) (prev : Block) (i0 : Nat),
    validateAux difficulty prev rest i0 = none →
    ∀ (j : Nat) (hj : j + 1 < (prev :: rest).length),
      blockCheck difficulty ((prev :: rest).get ⟨j, Nat.lt_of_succ_lt hj⟩)
        ((prev :: rest).get ⟨j + 1, hj⟩) = none
  | [], prev, i0, h, j, hj => by
    simp only [List.length_singleton] at hj
    omega
  | b :: bs, prev, i0, h, j, hj => by
    rw [validateAux] at h
    cases hcb : blockCheck difficulty prev b with
    | some k => rw [hcb] at h; exact absurd h (by simp)
    | none =>
      rw [hcb] at h
      cases j with
      | zero => exact hcb
      | succ j2 =>
        exact validateAux_none difficulty bs b (i0 + 1) h j2
          (by simp only [List.length_cons] at hj ⊢; omega)

theorem validateAux_some (difficulty : Nat) : ∀ (rest : List Block) (prev : Block) (i0 i : Nat)
    (k : FailKind), validateAux difficulty prev rest i0 = some (i, k) →
    ∃ j, i = i0 + j ∧ ∃ hj : j + 1 < (prev :: rest).length,
      blockCheck difficulty ((prev :: rest).get ⟨j, Nat.lt_of_succ_lt hj⟩)
        ((prev :: rest).get ⟨j + 1, hj⟩) = some k ∧
      ∀ (j2 : Nat) (hj2 : j2 + 1 < (prev :: rest).length), j2 < j →
        blockCheck difficulty ((prev :: rest).get ⟨j2, Nat.lt_of_succ_lt hj2⟩)
          ((prev :: rest).get ⟨j2 + 1, hj2⟩) = none
  | [], prev, i0, i, k, h => by exact absurd h (by simp [validateAux])
  | b :: bs, prev, i0, i, k, h => by
    rw [validateAux] at h
    cases hcb : blockCheck difficulty prev b with
    | some k2 =>
      rw [hcb] at h
      simp only [Option.some.injEq, Prod.mk.injEq] at h
      obtain ⟨rfl, rfl⟩ := h
      refine ⟨0, by omega, by simp only [List.length_cons]; omega, hcb,
        fun j2 hj2 hlt => absurd hlt (by omega)⟩
    | none =>
      rw [hcb] at h
      obtain ⟨j, hij, hj, hck, hmin⟩ := validateAux_some difficulty bs b (i0 + 1) i k h
      refine ⟨j + 1, by omega, ?_, ?_, ?_⟩
      · simp only [List.length_cons] at hj ⊢
        omega
      · exact hck
      · intro j2 hj2 hlt
        cases j2 with
        | zero => exact hcb
        | succ j3 =>
          exact hmin j3 (by simp only [List.length_cons] at hj2 ⊢; omega) (by omega)

theorem checkAt_eq (bc : Blockchain) (j : Nat) (hj : j + 1 < bc.chain.length) :
    checkAt bc (j + 1) =
      blockCheck bc.difficulty (bc.chain.get ⟨j, Nat.lt_of_succ_lt hj⟩)
        (bc.chain.get ⟨j + 1, hj⟩) := by
  unfold checkAt
  simp only [Nat.add_sub_cancel, List.getElem?_eq_getElem hj,
    List.getElem?_eq_getElem (Nat.lt_of_succ_lt hj), List.get_eq_getElem]

/-- Sealing fails to return whenever the embedded mining loop fails to return. -/
theorem mine_and_add_block_none {bc : Blockchain} {ts fuel : Nat} {prev : Block}
    (hne : bc.pending_transactions ≠ [])
    (hg : bc.chain.getLast? = some prev)
    (hm : mine_block bc.difficulty prev.hash ts
        (String.intercalate ";" bc.pending_transactions) fuel = none) :
    mine_and_add_block bc ts fuel = none := by
  unfold mine_and_add_block add_block
  rw [if_neg (by simp [hne])]
  simp only [hg, hm]

/-! ## The claims -/

/-- C2: the spec claims `calculate_hash` returns a fixed-width digest, every two
calls returning strings of the same length.  The code renders the 64-bit digest
with unpadded `format!("{:x}", _)`, so the width varies: on the inputs
`("0", 0, "a", 0)` and `("0", 0, "a", 9)` the rendered digests have lengths
16 and 15. -/
theorem calculate_hash_width_varies :
    (calculate_hash "0" 0 "a" 0).length = 16 ∧ (calculate_hash "0" 0 "a" 9).length = 15 ∧
      (calculate_hash "0" 0 "a" 0).length ≠ (calculate_hash "0" 0 "a" 9).length := by
  refine ⟨by decide, by decide, by decide⟩

/-- C4: whenever `mine_block` returns `(nonce, hash)`, the hash is the digest of
the four fields at that nonce, it satisfies the difficulty predicate (at least
`difficulty` leading `'0'` characters), and `nonce` is least such — the search
started at 0 and stepped by 1, so every smaller nonce fails the predicate. -/
theorem mine_block_spec (difficulty : Nat) (previous_hash : String) (timestamp : Nat)
    (data : String) (fuel nonce : Nat) (hash : String)
    (h : mine_block difficulty previous_hash timestamp data fuel = some (nonce, hash)) :
    hash = calculate_hash previous_hash timestamp data nonce ∧
      is_valid_hash difficulty hash = true ∧
      ∀ m, m < nonce →
        is_valid_hash difficulty (calculate_hash previous_hash timestamp data m) = false := by
  obtain ⟨-, h2, h3, h4⟩ :=
    mineFrom_spec difficulty previous_hash timestamp data fuel 0 nonce hash h
  exact ⟨h2, h3, fun m hm => h4 m (Nat.zero_le m) hm⟩

theorem mine_block_spec_witness :
    "74ef63fa1720c7b2" = calculate_hash "0" 0 "a" 0 ∧
      is_valid_hash 0 "74ef63fa1720c7b2" = true := by
  have h := mine_block_spec 0 "0" 0 "a" 1 0 "74ef63fa1720c7b2" (by decide)
  exact ⟨h.1, h.2.1⟩

/-- C6: for every difficulty, a fresh ledger holds exactly the genesis block —
index 0, `previous_hash "0"`, `hash "0"` — and an empty transaction pool. -/
theorem new_ledger_genesis (d : Nat) :
    (Blockchain.new d).chain = [genesisBlock] ∧ genesisBlock.index = 0 ∧
      genesisBlock.previous_hash = "0" ∧ genesisBlock.hash = "0" ∧
      (Blockchain.new d).pending_transactions = [] :=
  ⟨rfl, rfl, rfl, rfl, rfl⟩

/-- C8: sealing with an empty pool is a strict no-op: the ledger is returned
unchanged (chain, pool and difficulty identical) and no error arises. -/
theorem seal_empty_pool_noop (bc : Blockchain) (timestamp fuel : Nat)
    (h : bc.pending_transactions = []) :
    mine_and_add_block bc timestamp fuel = some bc := by
  unfold mine_and_add_block
  rw [if_pos (by simp [h])]

theorem seal_empty_pool_noop_witness :
    (Blockchain.new 4).pending_transactions = [] ∧
      mine_and_add_block (Blockchain.new 4) 0 0 = some (Blockchain.new 4) :=
  ⟨rfl, seal_empty_pool_noop (Blockchain.new 4) 0 0 rfl⟩

/-- C9: at difficulty 0 the miner accepts nonce 0 immediately: given any fuel at
all it returns `(0, digest at nonce 0)` without searching further. -/
theorem mine_difficulty_zero_immediate (previous_hash : String) (timestamp : Nat)
    (data : String) (fuel : Nat) :
    mine_block 0 previous_hash timestamp data (fuel + 1) =
      some (0, calculate_hash previous_hash timestamp data 0) := by
  simp [mine_block, mineFrom, is_valid_hash]

/-- C10: `calculate_hash` renders a 64-bit value as unpadded hex, whose first
character is `'0'` only when the whole string is `"0"`; consequently for every
difficulty at least 2 `is_valid_hash` rejects every possible digest and the
mining loop never returns, for any fuel. -/
theorem unpadded_hex_starves_mining :
    (∀ (p : String) (t : Nat) (d : String) (n : Nat),
      hashValue p t d n < 2 ^ 64 ∧
        calculate_hash p t d n = formatHex (hashValue p t d n)) ∧
    (∀ v : Nat, (formatHex v).data.head? = some '0' → formatHex v = "0") ∧
    (∀ (df : Nat) (p : String) (t : Nat) (d : String) (n : Nat), 2 ≤ df →
      is_valid_hash df (calculate_hash p t d n) = false) ∧
    (∀ (df : Nat) (p : String) (t : Nat) (d : String) (fuel : Nat), 2 ≤ df →
      mine_block df p t d fuel = none) := by
  refine ⟨fun p t d n => ⟨hashValue_lt p t d n, rfl⟩,
    fun v h => formatHex_head_eq_zero h, ?_, ?_⟩
  · intro df p t d n hdf
    exact is_valid_hash_formatHex_false hdf _
  · intro df p t d fuel hdf
    exact mineFrom_none_of_all_invalid df p t d
      (fun m => is_valid_hash_formatHex_false hdf _) fuel 0

theorem unpadded_hex_starves_mining_witness :
    formatHex 0 = "0" ∧ is_valid_hash 2 (calculate_hash "0" 0 "a" 0) = false ∧
      mine_block 2 "0" 0 "a" 2 = none :=
  ⟨unpadded_hex_starves_mining.2.1 0 (by decide),
    unpadded_hex_starves_mining.2.2.1 2 "0" 0 "a" 0 (by omega),
    unpadded_hex_starves_mining.2.2.2 2 "0" 0 "a" 2 (by omega)⟩

/-- C1: `validate` (modelled from the spec; no such method exists in
`src/main.rs`) returns success exactly when, for every block from index 1
upward, the recomputed digest matches the stored hash, the linkage holds and
the difficulty predicate is met; otherwise it returns the index and failing
check of the first violation, stopping there. -/
theorem validate_reports_first_violation (bc : Blockchain) :
    (validate bc = none → ∀ (i : Nat), 0 < i → i < bc.chain.length → checkAt bc i = none) ∧
    (∀ (i : Nat) (k : FailKind), validate bc = some (i, k) →
      0 < i ∧ i < bc.chain.length ∧ checkAt bc i = some k ∧
      ∀ (j : Nat), 0 < j → j < i → checkAt bc j = none) := by
  obtain ⟨chain, pending, diff⟩ := bc
  cases chain with
  | nil =>
    exact ⟨fun _ i _ hi => absurd hi (by simp), fun i k h => absurd h (by simp [validate])⟩
  | cons g rest =>
    constructor
    · intro hnone i hpos hi
      obtain ⟨j, rfl⟩ : ∃ j, i = j + 1 := ⟨i - 1, by omega⟩
      have hj : j + 1 < (g :: rest).length := hi
      rw [checkAt_eq ⟨g :: rest, pending, diff⟩ j hj]
      exact validateAux_none diff rest g 1 hnone j hj
    · intro i k h
      obtain ⟨j, hij, hj, hck, hmin⟩ := validateAux_some diff rest g 1 i k h
      subst hij
      refine ⟨by omega, by simp only [List.length_cons] at hj ⊢; omega, ?_, ?_⟩
      · have heq : checkAt ⟨g :: rest, pending, diff⟩ (j + 1) = some k := by
          rw [checkAt_eq ⟨g :: rest, pending, diff⟩ j hj]
          exact hck
        simpa [Nat.add_comm] using heq
      · intro j2 hpos2 hlt
        obtain ⟨j3, rfl⟩ : ∃ j3, j2 = j3 + 1 := ⟨j2 - 1, by omega⟩
        have hj3 : j3 + 1 < (g :: rest).length := by
          simp only [List.length_cons] at hj ⊢
          omega
        rw [checkAt_eq ⟨g :: rest, pending, diff⟩ j3 hj3]
        exact hmin j3 hj3 (by omega)

/-- A two-block ledger whose second block stores a hash that does not match the
recomputed digest: `validate` must flag index 1 with a hash mismatch. -/
def wTampered : Blockchain :=
  { chain := [genesisBlock,
      { index := 1, timestamp := 3, data := "x", previous_hash := "0",
        hash := "beef", nonce := 0 }],
    pending_transactions := [], difficulty := 0 }

theorem validate_reports_first_violation_witness :
    checkAt wTampered 1 = some FailKind.hashMismatch := by
  have h := (validate_reports_first_violation wTampered).2 1 FailKind.hashMismatch (by decide)
  exact h.2.2.1

/-- C3: the reference scenario at difficulty 4 does not behave as the spec says:
its very first seal never returns, because no unpadded hex digest can start with
`"0000"`.  The run of the scenario (for any timestamp, under any fuel bound on
the embedded mining loop) never completes. -/
theorem scenarioA_seal_never_returns (ts fuel : Nat) :
    run (Blockchain.new 4)
      [Op.tx "Transaction 1", Op.tx "Transaction 2", Op.seal ts fuel] = none := by
  have hmine : mine_block 4 "0" ts "Transaction 1;Transaction 2" fuel = none :=
    mineFrom_none_of_all_invalid 4 "0" ts "Transaction 1;Transaction 2"
      (fun m => is_valid_hash_formatHex_false (by omega) _) fuel 0
  have hstep : run (Blockchain.new 4)
      [Op.tx "Transaction 1", Op.tx "Transaction 2", Op.seal ts fuel] =
      match mine_and_add_block
        { chain := [genesisBlock],
          pending_transactions := ["Transaction 1", "Transaction 2"], difficulty := 4 }
        ts fuel with
      | none => none
      | some bc2 => run bc2 [] := rfl
  have hdata : String.intercalate ";" ["Transaction 1", "Transaction 2"] =
      "Transaction 1;Transaction 2" := by decide
  have hseal : mine_and_add_block
      { chain := [genesisBlock],
        pending_transactions := ["Transaction 1", "Transaction 2"], difficulty := 4 }
      ts fuel = none := by
    refine mine_and_add_block_none (by simp) rfl ?_
    show mine_block 4 "0" ts (String.intercalate ";" ["Transaction 1", "Transaction 2"])
      fuel = none
    rw [hdata]
    exact hmine
  rw [hstep, hseal]

/-- C5: after any sequence of `add_transaction` and `mine_and_add_block` calls
on a fresh ledger (whose seals all returned), every non-genesis block's
`previous_hash` equals its predecessor's `hash`. -/
theorem chain_linkage (d : Nat) (ops : List Op) (bc : Blockchain)
    (h : run (Blockchain.new d) ops = some bc) (i : Nat) (hpos : 0 < i)
    (hi : i < bc.chain.length) :
    (bc.chain.get ⟨i, hi⟩).previous_hash =
      (bc.chain.get ⟨i - 1, by omega⟩).hash := by
  have hl : linkedChain bc.chain = true :=
    run_linked ops (Blockchain.new d) bc h rfl
  obtain ⟨j, rfl⟩ : ∃ j, i = j + 1 := ⟨i - 1, by omega⟩
  simpa using linkedChain_get bc.chain hl j hi

def wRunOps : List Op := [Op.tx "a", Op.seal 5 1]

def wRunBC : Blockchain := Option.get (run (Blockchain.new 0) wRunOps) (by decide)

theorem chain_linkage_witness :
    (wRunBC.chain.get ⟨1, by decide⟩).previous_hash =
      (wRunBC.chain.get ⟨0, by decide⟩).hash := by
  have h := chain_linkage 0 wRunOps wRunBC (Option.some_get (by decide)).symm 1
    (by omega) (by decide)
  simpa using h

/-- C7: sealing with `N ≥ 1` pending transactions, when it returns, empties the
pool, grows the chain by exactly one block, and that new last block's data is
the pool's entries joined in insertion order with `";"`. -/
theorem seal_pending_drains (bc : Blockchain) (timestamp fuel : Nat) (bc2 : Blockchain)
    (hne : bc.pending_transactions ≠ [])
    (h : mine_and_add_block bc timestamp fuel = some bc2) :
    bc2.pending_transactions = [] ∧ bc2.chain.length = bc.chain.length + 1 ∧
      bc2.chain.getLast?.map Block.data =
        some (String.intercalate ";" bc.pending_transactions) := by
  unfold mine_and_add_block at h
  rw [if_neg (by simp [hne])] at h
  split at h
  · exact absurd h (by simp)
  · rename_i bc3 hab
    simp only [Option.some.injEq] at h
    subst h
    unfold add_block at hab
    split at hab
    · exact absurd hab (by simp)
    · rename_i prev hg
      split at hab
      · exact absurd hab (by simp)
      · rename_i nonce hash hm
        simp only [Option.some.injEq] at hab
        subst hab
        refine ⟨rfl, ?_, ?_⟩
        · simp
        · simp [List.getLast?_concat]

def wPool : Blockchain := add_transaction (add_transaction (Blockchain.new 0) "a") "b"

def wSealed : Blockchain := Option.get (mine_and_add_block wPool 7 1) (by decide)

theorem seal_pending_drains_witness :
    wSealed.pending_transactions = [] ∧ wSealed.chain.length = wPool.chain.length + 1 ∧
      wSealed.chain.getLast?.map Block.data =
        some (String.intercalate ";" wPool.pending_transactions) :=
  seal_pending_drains wPool 7 1 wSealed (by decide) (Option.some_get (by decide)).symm

end AnPow
